import Mathlib

/-!
Verification of a binary-search-tree key/value container (bst.hpp).

The C++ class `bst<value_type, key_type, cmp_op>` stores nodes that own
their two children through unique pointers and keep a raw back-pointer to
their parent.  We embed the node graph as an inductive tree in which every
node carries, besides its entry `(k, v)`, the value of its parent pointer,
represented by the parent's key (`none` for a null parent pointer).  Keys
are unique in every tree produced by the container, so a key identifies a
node.  The comparator `cmp_op` is an arbitrary boolean relation `lt`,
mirroring a C++ comparison object; no ordering axioms are baked into the
definitions, they appear only as explicit hypotheses of theorems.
-/

universe u v

/-- A node of the C++ `node` struct: left subtree, key, mapped value,
stored parent pointer (as the parent's key, `none` = null), right subtree.
`leaf` is a null `unique_ptr`. -/
inductive PTree (K : Type u) (V : Type v) where
  | leaf : PTree K V
  | node (l : PTree K V) (k : K) (v : V) (par : Option K) (r : PTree K V) : PTree K V
deriving DecidableEq

namespace PTree

variable {K : Type u} {V : Type v}

/-- In-order traversal: the sequence of entries produced by the container's
iterator from `begin()` to `end()`. -/
def inorder : PTree K V → List (K × V)
  | .leaf => []
  | .node l k v _ r => inorder l ++ (k, v) :: inorder r

/-- The keys of the tree in iteration order. -/
def keys (t : PTree K V) : List K := (inorder t).map Prod.fst

/-- Number of entries stored in the tree. -/
def size (t : PTree K V) : Nat := (inorder t).length

/-- Height of the node graph (empty tree has height 0). -/
def height : PTree K V → Nat
  | .leaf => 0
  | .node l _ _ _ r => max (height l) (height r) + 1

/-- BST-ordering invariant of the spec: at every node, all keys of the left
subtree compare less than the node's key under the comparator and all keys
of the right subtree compare greater. -/
def Ordered (lt : K → K → Bool) : PTree K V → Prop
  | .leaf => True
  | .node l k _ _ r =>
      Ordered lt l ∧ Ordered lt r ∧
        (∀ a ∈ keys l, lt a k = true) ∧ (∀ b ∈ keys r, lt k b = true)

instance orderedDecidable (lt : K → K → Bool) :
    (t : PTree K V) → Decidable (Ordered lt t)
  | .leaf => .isTrue trivial
  | .node l k _ _ r =>
      haveI := orderedDecidable lt l
      haveI := orderedDecidable lt r
      inferInstanceAs (Decidable (_ ∧ _ ∧ _ ∧ _))

/-- Parent-consistency invariant of the spec: every node's stored parent
pointer designates the node that actually owns it; the parameter is the
owner of the root of this subtree (`none` for the tree's root). -/
def ParentOk (p : Option K) : PTree K V → Prop
  | .leaf => True
  | .node l k _ q r => q = p ∧ ParentOk (some k) l ∧ ParentOk (some k) r

instance parentOkDecidable [DecidableEq K] (p : Option K) :
    (t : PTree K V) → Decidable (ParentOk p t)
  | .leaf => .isTrue trivial
  | .node l k _ _ r =>
      haveI := parentOkDecidable (some k) l
      haveI := parentOkDecidable (some k) r
      inferInstanceAs (Decidable (_ ∧ _ ∧ _))

/-- `bst::_find`: iterative descent from the root.  At each node the code
first tests `tmp->value.first == x` (key equality), then `op(x, key)` to go
left, then `op(key, x)` to go right, and returns null when none of the
three holds.  The returned iterator is represented by the entry stored at
the found node. -/
def findNode [DecidableEq K] (lt : K → K → Bool) (x : K) :
    PTree K V → Option (K × V)
  | .leaf => none
  | .node l k v _ r =>
      if k = x then some (k, v)
      else if lt x k then findNode lt x l
      else if lt k x then findNode lt x r
      else none

/-- The body of `bst::_insert`'s `while (tmp)` loop, made explicit as a
fuel-indexed step function.  `phase = false` is the first conditional
`if (op(tmp->value.first, x.first))` (go/insert right), `phase = true` the
second conditional `if (op(x.first, tmp->value.first))` (go/insert left);
the two run in sequence within one loop iteration and when neither fires
the loop repeats with `tmp` unchanged, which is why the function needs
fuel: the C++ loop is not structurally terminating.  A `leaf` input is the
`while (tmp)` exit with a null root, which executes
`root = std::make_unique<node_t>(x, nullptr)`.  New children are created
with their parent pointer set to the node they hang from, exactly as
`std::make_unique<node_t>(std::forward<O>(x), tmp)` does. -/
def insertGo (lt : K → K → Bool) (x : K × V) :
    Nat → Bool → PTree K V → Option (PTree K V)
  | _, _, .leaf => some (.node .leaf x.1 x.2 none .leaf)
  | 0, _, .node _ _ _ _ _ => none
  | fuel + 1, false, .node l k v q r =>
      if lt k x.1 then
        match r with
        | .leaf => some (.node l k v q (.node .leaf x.1 x.2 (some k) .leaf))
        | .node rl rk rv rq rr =>
            (insertGo lt x fuel true (.node rl rk rv rq rr)).map
              (fun s => .node l k v q s)
      else insertGo lt x fuel true (.node l k v q r)
  | fuel + 1, true, .node l k v q r =>
      if lt x.1 k then
        match l with
        | .leaf => some (.node (.node .leaf x.1 x.2 (some k) .leaf) k v q r)
        | .node ll lk lv lq lr =>
            (insertGo lt x fuel false (.node ll lk lv lq lr)).map
              (fun s => .node s k v q r)
      else insertGo lt x fuel false (.node l k v q r)

/-- `bst::_insert`: first `_find(x.first)`; on a hit, return an iterator to
the existing node and `false` without touching the tree; otherwise run the
descent loop.  The result triple is (entry at the returned iterator,
`inserted` flag, resulting tree); `none` means the loop ran out of fuel,
i.e. the C++ code would not have returned yet. -/
def insertFuel [DecidableEq K] (lt : K → K → Bool) (fuel : Nat)
    (t : PTree K V) (x : K × V) : Option ((K × V) × Bool × PTree K V) :=
  match findNode lt x.1 t with
  | some e => some (e, false, t)
  | none => (insertGo lt x fuel false t).map (fun s => (x, true, s))

/-- `bst::emplace`: constructs the pair from its arguments and calls
`insert` on it. -/
def emplace [DecidableEq K] (lt : K → K → Bool) (fuel : Nat)
    (t : PTree K V) (k : K) (v : V) : Option ((K × V) × Bool × PTree K V) :=
  insertFuel lt fuel t (k, v)

/-- A sequence of `insert` calls, all run with the same fuel bound;
`none` as soon as one of them fails to terminate within the fuel. -/
def insertAllF [DecidableEq K] (lt : K → K → Bool) (fuel : Nat) :
    PTree K V → List (K × V) → Option (PTree K V)
  | t, [] => some t
  | t, x :: xs =>
      match insertFuel lt fuel t x with
      | some (_, _, t1) => insertAllF lt fuel t1 xs
      | none => none

/-- Assignment `n->parent = p` on the root node of a subtree (the C++ code
only performs it on non-null nodes). -/
def setParent : PTree K V → Option K → PTree K V
  | .leaf, _ => .leaf
  | .node l k v _ r, p => .node l k v p r

/-- `bst::_inorder`: walk `left` pointers from `x` and return the leftmost
node.  The accumulator is the entry of the node currently pointed to; the
C++ function is only invoked on non-null nodes, for which the accumulator
passed at the top is immediately replaced. -/
def leftmostEntry : PTree K V → (K × V) → K × V
  | .leaf, d => d
  | .node l k v _ _, _ => leftmostEntry l (k, v)

/-- `bst::erase`.  The C++ routine first locates the node with `_find`
(key equality first, then the two comparator tests, null when all three
fail) and returns when the key is absent; the recursive descent below is
that location walk, with the surrounding structure left untouched exactly
as the in-place pointer surgery leaves it.  At the located node the three
structural cases of the code are reproduced:
leaf — reset the owning pointer;
two children — take the in-order successor entry `v` from
`_inorder(n->right)`, recursively `erase(v.first)` (the C++ call descends
from the root and, the located node's subtree being where `v.first`
lives, rewrites exactly its right subtree), then rebuild the node as
`new node_t{v, n->right.release(), n->left.release(), n->parent}` and
repoint both children's parent pointers at it;
one child — promote the sole child into the slot, updating its parent
pointer to `n->parent`. -/
def erase [DecidableEq K] (lt : K → K → Bool) :
    PTree K V → K → PTree K V
  | .leaf, _ => .leaf
  | .node l k v q r, x =>
      if k = x then
        match l, r with
        | .leaf, .leaf => .leaf
        | .node ll lk lv lq lr, .node rl rk rv rq rr =>
            let s := leftmostEntry (.node rl rk rv rq rr) (rk, rv)
            let r1 := erase lt (.node rl rk rv rq rr) s.1
            .node (setParent (.node ll lk lv lq lr) (some s.1)) s.1 s.2 q
              (setParent r1 (some s.1))
        | .node ll lk lv lq lr, .leaf =>
            setParent (.node ll lk lv lq lr) q
        | .leaf, .node rl rk rv rq rr =>
            setParent (.node rl rk rv rq rr) q
      else if lt x k then .node (erase lt l x) k v q r
      else if lt k x then .node l k v q (erase lt r x)
      else .node l k v q r

/-- The `node` deep-copy constructor
`node(const std::unique_ptr<node>& x, node* p)`: copies the entry, sets the
parent pointer from the argument, and recursively copies both children with
parent `this`. -/
def copyNode (p : Option K) : PTree K V → PTree K V
  | .leaf => .leaf
  | .node l k v _ r => .node (copyNode (some k) l) k v p (copyNode (some k) r)

/-- The `bst` copy constructor: deep-copies the root with a null parent. -/
def bstCopy (t : PTree K V) : PTree K V := copyNode none t

/-- `bst::operator=` (copy assignment).  The C++ body is
`root.reset(); auto tmp = x; *this = std::move(tmp);`.
`sameObject` records whether `x` aliases `*this` (the self-assignment
`t = t`): in that case the copy constructor runs on the already-cleared
tree. -/
def copyAssign (selfRoot : PTree K V) (sameObject : Bool)
    (x : PTree K V) : PTree K V :=
  let cleared : PTree K V := .leaf
  let source := if sameObject then cleared else x
  bstCopy source

/-- `operator<<`: the friend printer iterates the tree in order and writes
`os << i.first << " "` for every entry; `s` renders a key the way the
stream does.  The result is the full character output. -/
def printTree (s : K → String) (t : PTree K V) : String :=
  String.join ((inorder t).map (fun e => s e.1 ++ " "))

/-- `bst::_balance(nodes, start, end)`: when `start < end`, insert
`nodes[(start+end)/2]` and recurse on `[start, mid)` and `[mid+1, end)`.
`gas` is a structural bound on the recursion depth (each call strictly
shrinks the range, so `e - s` gas always suffices; `balanceFuel` passes
exactly that).  Out-of-range indexing (impossible in the calls the
container makes), gas exhaustion on a non-empty range and fuel exhaustion
inside `insert` all surface as `none`. -/
def balAux [DecidableEq K] (lt : K → K → Bool) (fuel : Nat)
    (nodes : List (K × V)) : Nat → Nat → Nat → PTree K V → Option (PTree K V)
  | 0, s, e, t => if s < e then none else some t
  | gas + 1, s, e, t =>
      if s < e then
        let mid := (s + e) / 2
        match nodes[mid]? with
        | none => none
        | some x =>
            match insertFuel lt fuel t x with
            | none => none
            | some (_, _, t1) =>
                match balAux lt fuel nodes gas s mid t1 with
                | none => none
                | some t2 => balAux lt fuel nodes gas (mid + 1) e t2
      else some t

/-- `bst::balance`: collect the entries by an in-order walk, `clear()`,
then `_balance(nodes, 0, nodes.size())`. -/
def balanceFuel [DecidableEq K] (lt : K → K → Bool) (fuel : Nat)
    (t : PTree K V) : Option (PTree K V) :=
  let nodes := inorder t
  balAux lt fuel nodes nodes.length 0 nodes.length .leaf

/-- The order in which `_balance` feeds the entries of a slice to
`insert`: middle element first, then the left half, then the right half. -/
def midOrderL (l : List (K × V)) : List (K × V) :=
  if h : l.length = 0 then []
  else
    have hm : l.length / 2 < l.length :=
      Nat.div_lt_self (by omega) one_lt_two
    l.get ⟨l.length / 2, hm⟩ ::
      (midOrderL (l.take (l.length / 2)) ++
        midOrderL (l.drop (l.length / 2 + 1)))
  termination_by l.length
  decreasing_by
  · simp only [List.length_take]
    omega
  · simp only [List.length_drop]
    omega

/-- The perfectly-balanced tree the median-first reinsertion produces from
a sorted slice; `p` is the parent pointer its root receives. -/
def buildBal (p : Option K) (l : List (K × V)) : PTree K V :=
  if h : l.length = 0 then .leaf
  else
    have hm : l.length / 2 < l.length :=
      Nat.div_lt_self (by omega) one_lt_two
    let x := l.get ⟨l.length / 2, hm⟩
    .node (buildBal (some x.1) (l.take (l.length / 2))) x.1 x.2 p
      (buildBal (some x.1) (l.drop (l.length / 2 + 1)))
  termination_by l.length
  decreasing_by
  · simp only [List.length_take]
    omega
  · simp only [List.length_drop]
    omega

/-- The descent direction `_insert`'s loop commits to at each node, as a
structural function: test `op(key, x)` (right), then `op(x, key)` (left).
When neither comparison fires the C++ loop never leaves the node; that
branch returns the tree unchanged and is reachable only from runs of
`insertGo` that return `none`, so it never describes a completed insert.
`p` is the parent pointer a node created at a leaf position receives. -/
def insDet (lt : K → K → Bool) (x : K × V) (p : Option K) :
    PTree K V → PTree K V
  | .leaf => .node .leaf x.1 x.2 p .leaf
  | .node l k v q r =>
      if lt k x.1 then .node l k v q (insDet lt x (some k) r)
      else if lt x.1 k then .node (insDet lt x (some k) l) k v q r
      else .node l k v q r

/-- One completed `insert` call as a pure function: the find-guard keeps
the tree unchanged on a hit, otherwise the loop adds the entry at the slot
`insDet` points to. -/
def insStep [DecidableEq K] (lt : K → K → Bool) (p : Option K)
    (t : PTree K V) (x : K × V) : PTree K V :=
  match findNode lt x.1 t with
  | some _ => t
  | none => insDet lt x p t

/-- The proposition that `insert(x)` on tree `t` returns at all (for some
number of loop iterations). -/
def InsertTerminates [DecidableEq K] (lt : K → K → Bool)
    (t : PTree K V) (x : K × V) : Prop :=
  ∃ fuel r, insertFuel lt fuel t x = some r

/-- A comparator on `Int` that compares absolute values: a genuine strict
weak ordering in which distinct keys such as `2` and `-2` are equivalent
(neither compares less than the other) without being equal. -/
def absLt (a b : Int) : Bool := decide (a.natAbs < b.natAbs)

/-- A one-node tree holding key `2`, used with `absLt` to exercise the
behaviour of `_find` and `_insert` on equivalent-but-unequal keys. -/
def absTree : PTree Int Int := .node .leaf 2 20 none .leaf

/-- The single-space separator written between keys by `operator<<`. -/
def sepSpace : String := " "

/-- The default comparator `std::less<key_type>` instantiated at `Nat`. -/
def natLtB (a b : Nat) : Bool := decide (a < b)

/-- A right-leaning chain of three entries, as produced by inserting
keys 1, 2, 3 in order. -/
def chain3 : PTree Nat Nat :=
  .node .leaf 1 10 none (.node .leaf 2 20 (some 1) (.node .leaf 3 30 (some 2) .leaf))

/-- The balanced tree over keys 1, 2, 3. -/
def bal3 : PTree Nat Nat :=
  .node (.node .leaf 1 10 (some 2) .leaf) 2 20 none
    (.node .leaf 3 30 (some 2) .leaf)

/-- The balanced tree over keys 1, 3, 4, 5, 7, 8, 9 (the spec's erase
example), with parent pointers as the container sets them. -/
def tree7 : PTree Nat Nat :=
  .node
    (.node (.node .leaf 1 10 (some 3) .leaf) 3 30 (some 5)
      (.node .leaf 4 40 (some 3) .leaf))
    5 50 none
    (.node (.node .leaf 7 70 (some 8) .leaf) 8 80 (some 5)
      (.node .leaf 9 90 (some 8) .leaf))

/-- Asymmetry of the comparator, one half of the strict-weak-ordering
contract the container assumes. -/
def LtAsymm (lt : K → K → Bool) : Prop :=
  ∀ a b, lt a b = true → lt b a = false

/-- Transitivity of the comparator. -/
def LtTrans (lt : K → K → Bool) : Prop :=
  ∀ a b c, lt a b = true → lt b c = true → lt a c = true

theorem LtAsymm.irrefl {lt : K → K → Bool} (h : LtAsymm lt) (a : K) :
    lt a a = false := by
  cases hs : lt a a with
  | false => rfl
  | true => simpa [hs] using h a a hs

section BasicLemmas

variable {lt : K → K → Bool}

@[simp] theorem inorder_leaf : inorder (.leaf : PTree K V) = [] := rfl

@[simp] theorem inorder_node (l : PTree K V) (k v q r) :
    inorder (.node l k v q r) = inorder l ++ (k, v) :: inorder r := rfl

@[simp] theorem keys_leaf : keys (.leaf : PTree K V) = [] := rfl

@[simp] theorem keys_node (l : PTree K V) (k v q r) :
    keys (.node l k v q r) = keys l ++ k :: keys r := by
  simp [keys]

theorem mem_keys_iff {t : PTree K V} {a : K} :
    a ∈ keys t ↔ ∃ w, (a, w) ∈ inorder t := by
  simp [keys, List.mem_map]

@[simp] theorem inorder_setParent (t : PTree K V) (p : Option K) :
    inorder (setParent t p) = inorder t := by
  cases t <;> simp [setParent]

@[simp] theorem keys_setParent (t : PTree K V) (p : Option K) :
    keys (setParent t p) = keys t := by
  simp [keys]

@[simp] theorem ordered_leaf : Ordered lt (.leaf : PTree K V) := trivial

theorem ordered_node_iff {l : PTree K V} {k v q r} :
    Ordered lt (.node l k v q r) ↔
      Ordered lt l ∧ Ordered lt r ∧
        (∀ a ∈ keys l, lt a k = true) ∧ (∀ b ∈ keys r, lt k b = true) :=
  Iff.rfl

theorem ordered_setParent {t : PTree K V} (p : Option K) :
    Ordered lt (setParent t p) ↔ Ordered lt t := by
  cases t <;> simp [setParent, ordered_node_iff]

theorem parentOk_setParent {t : PTree K V} {q : Option K} (p : Option K)
    (h : ParentOk q t) : ParentOk p (setParent t p) := by
  cases t with
  | leaf => trivial
  | node l k v q0 r => exact ⟨rfl, h.2.1, h.2.2⟩

/-- BST ordering plus transitivity of the comparator make the in-order
entry sequence strictly ascending. -/
theorem ordered_pairwise (htr : LtTrans lt) {t : PTree K V}
    (h : Ordered lt t) :
    List.Pairwise (fun a b : K × V => lt a.1 b.1 = true) (inorder t) := by
  induction t with
  | leaf => simp
  | node l k v q r ihl ihr =>
      obtain ⟨hl, hr, hlk, hkr⟩ := h
      rw [inorder_node, List.pairwise_append]
      refine ⟨ihl hl, ?_, ?_⟩
      · rw [List.pairwise_cons]
        refine ⟨?_, ihr hr⟩
        intro b hb
        exact hkr b.1 (by simpa [keys] using List.mem_map_of_mem Prod.fst hb)
      · intro a ha e he
        have hak : lt a.1 k = true :=
          hlk a.1 (by simpa [keys] using List.mem_map_of_mem Prod.fst ha)
        rw [List.mem_cons] at he
        rcases he with he | he
        · simpa [he]
        · exact htr _ _ _ hak
            (hkr e.1 (by simpa [keys] using List.mem_map_of_mem Prod.fst he))

theorem ordered_pairwise_keys (htr : LtTrans lt) {t : PTree K V}
    (h : Ordered lt t) :
    List.Pairwise (fun a b : K => lt a b = true) (keys t) := by
  rw [keys, List.pairwise_map]
  exact ordered_pairwise htr h

/-- Ordered trees with an asymmetric comparator have pairwise distinct
keys. -/
theorem ordered_nodup (hasym : LtAsymm lt) (htr : LtTrans lt)
    {t : PTree K V} (h : Ordered lt t) : (keys t).Nodup := by
  refine (ordered_pairwise_keys htr h).imp ?_
  intro a b hab hEq
  rw [hEq] at hab
  simpa [hasym.irrefl b] using hab

end BasicLemmas

section FindLemmas

variable [DecidableEq K] {lt : K → K → Bool}

/-- Whatever `_find` returns was reached by an exact key-equality hit: the
returned node's key is the searched key `==`-equal, and it is an entry of
the tree. -/
theorem findNode_sound {t : PTree K V} {x : K} {e : K × V}
    (h : findNode lt x t = some e) : e.1 = x ∧ e ∈ inorder t := by
  induction t with
  | leaf => simp [findNode] at h
  | node l k v q r ihl ihr =>
      rw [findNode] at h
      by_cases hk : k = x
      · subst hk
        rw [if_pos rfl] at h
        cases h
        exact ⟨rfl, by simp⟩
      · rw [if_neg hk] at h
        by_cases h1 : lt x k = true
        · rw [if_pos h1] at h
          obtain ⟨h2, h3⟩ := ihl h
          exact ⟨h2, by simp [h3]⟩
        · rw [if_neg h1] at h
          by_cases h4 : lt k x = true
          · rw [if_pos h4] at h
            obtain ⟨h2, h3⟩ := ihr h
            exact ⟨h2, by simp [h3]⟩
          · rw [if_neg h4] at h
            cases h

/-- `_find` can only answer `some` for a key that is present. -/
theorem findNode_none_of_not_mem {t : PTree K V} {x : K}
    (h : x ∉ keys t) : findNode lt x t = none := by
  cases hf : findNode lt x t with
  | none => rfl
  | some e =>
      obtain ⟨h1, h2⟩ := findNode_sound hf
      exact absurd (mem_keys_iff.mpr ⟨e.2, by simpa [← h1] using h2⟩) h

/-- On an ordered tree with an asymmetric comparator, `_find` locates every
present key and returns its stored entry. -/
theorem findNode_present (hasym : LtAsymm lt) {t : PTree K V}
    (hord : Ordered lt t) {x : K} {w : V} (hm : (x, w) ∈ inorder t) :
    findNode lt x t = some (x, w) := by
  induction t with
  | leaf => simp at hm
  | node l k v q r ihl ihr =>
      obtain ⟨hl, hr, hlk, hkr⟩ := hord
      rw [inorder_node, List.mem_append, List.mem_cons] at hm
      rw [findNode]
      rcases hm with hm | hm | hm
      · have hxk : lt x k = true :=
          hlk x (by simpa [keys] using List.mem_map_of_mem Prod.fst hm)
        have hne : ¬ k = x := by
          intro hkx
          rw [hkx] at hxk
          simp [hasym.irrefl x] at hxk
        rw [if_neg hne, if_pos hxk]
        exact ihl hl hm
      · obtain ⟨hx, hw⟩ := Prod.mk.injEq .. ▸ hm
        simp [← hx, ← hw]
      · have hkx : lt k x = true :=
          hkr x (by simpa [keys] using List.mem_map_of_mem Prod.fst hm)
        have hxk : lt x k = false := hasym _ _ hkx
        have hne : ¬ k = x := by
          intro hkx2
          rw [hkx2] at hkx
          simp [hasym.irrefl x] at hkx
        rw [if_neg hne, hxk]
        simp [if_pos hkx]
        exact ihr hr hm

end FindLemmas

section EraseLemmas

variable [DecidableEq K] {lt : K → K → Bool}

/-- `_inorder` returns the head of the in-order sequence of a non-empty
subtree (the accumulator is irrelevant for non-empty input). -/
theorem inorder_eq_leftmost_cons (l : PTree K V) (k : K) (v : V)
    (q : Option K) (r : PTree K V) (d : K × V) :
    ∃ rest, inorder (.node l k v q r) =
      leftmostEntry (.node l k v q r) d :: rest := by
  induction l generalizing k v q r d with
  | leaf => exact ⟨inorder r, by simp [leftmostEntry]⟩
  | node ll lk lv lq lr ihl ihr =>
      obtain ⟨rest, hrest⟩ := ihl lk lv lq lr (lk, lv)
      refine ⟨rest ++ (k, v) :: inorder r, ?_⟩
      have : inorder (PTree.node (.node ll lk lv lq lr) k v q r) =
          inorder (PTree.node ll lk lv lq lr) ++ (k, v) :: inorder r := by
        simp
      rw [this, hrest]
      simp [leftmostEntry]

/-- Every entry's key is among the tree's keys. -/
theorem fst_mem_keys {t : PTree K V} {e : K × V} (h : e ∈ inorder t) :
    e.1 ∈ keys t :=
  List.mem_map_of_mem Prod.fst h

theorem filter_ne_of_all {x : K} {li : List (K × V)}
    (h : ∀ e ∈ li, e.1 ≠ x) :
    List.filter (fun e => decide (e.1 ≠ x)) li = li :=
  List.filter_eq_self.mpr (fun e he => by simpa using h e he)

/-- The full specification of `bst::erase` for a present key on a tree
satisfying both invariants: the in-order entry sequence of the result is
the original sequence with exactly the entries keyed `x` removed, the
BST ordering is restored, and parent consistency is restored. -/
theorem erase_spec (hasym : LtAsymm lt) (htr : LtTrans lt) :
    ∀ (t : PTree K V), Ordered lt t → ∀ x, x ∈ keys t →
      inorder (erase lt t x) =
        (inorder t).filter (fun e => decide (e.1 ≠ x)) ∧
      Ordered lt (erase lt t x) ∧
      (∀ p, ParentOk p t → ParentOk p (erase lt t x)) := by
  intro t
  induction t with
  | leaf => intro _ x hx; simp [keys] at hx
  | node l k v q r ihl ihr =>
      intro hord x hx
      obtain ⟨hl, hr, hlk, hkr⟩ := hord
      have hlne : ∀ e ∈ inorder l, e.1 ≠ k := by
        intro e he hEq
        have h1 := hlk e.1 (fst_mem_keys he)
        rw [hEq] at h1
        simp [hasym.irrefl k] at h1
      have hrne : ∀ e ∈ inorder r, e.1 ≠ k := by
        intro e he hEq
        have h1 := hkr e.1 (fst_mem_keys he)
        rw [hEq] at h1
        simp [hasym.irrefl k] at h1
      by_cases hk : k = x
      · subst hk
        -- the located node is this one
        have htarget :
            (inorder (PTree.node l k v q r)).filter
                (fun e => decide (e.1 ≠ k)) = inorder l ++ inorder r := by
          rw [inorder_node, List.filter_append,
            List.filter_cons_of_neg (by simp), filter_ne_of_all hlne,
            filter_ne_of_all hrne]
        cases l with
        | leaf =>
            cases r with
            | leaf =>
                have herase : erase lt (PTree.node .leaf k v q .leaf) k =
                    PTree.leaf := by
                  rw [erase.eq_def]
                  simp only []
                  rw [if_true]
                refine ⟨?_, ?_, ?_⟩
                · rw [herase, htarget]
                  simp
                · rw [herase]
                  trivial
                · intro p _
                  rw [herase]
                  trivial
            | node rl rk rv rq rr =>
                -- one child (right): promote it
                have herase :
                    erase lt (PTree.node .leaf k v q (.node rl rk rv rq rr)) k =
                      setParent (.node rl rk rv rq rr) q := by
                  rw [erase.eq_def]
                  simp only []
                  rw [if_true]
                refine ⟨?_, ?_, ?_⟩
                · rw [herase, htarget, inorder_setParent]
                  simp
                · rw [herase, ordered_setParent]
                  exact hr
                · intro p hp
                  obtain ⟨hq, hpl, hpr⟩ := hp
                  subst hq
                  rw [herase]
                  exact parentOk_setParent q hpr
        | node ll lk lv lq lr =>
            cases r with
            | leaf =>
                -- one child (left): promote it
                have herase :
                    erase lt (PTree.node (.node ll lk lv lq lr) k v q .leaf) k =
                      setParent (.node ll lk lv lq lr) q := by
                  rw [erase.eq_def]
                  simp only []
                  rw [if_true]
                refine ⟨?_, ?_, ?_⟩
                · rw [herase, htarget, inorder_setParent]
                  simp
                · rw [herase, ordered_setParent]
                  exact hl
                · intro p hp
                  obtain ⟨hq, hpl, hpr⟩ := hp
                  subst hq
                  rw [herase]
                  exact parentOk_setParent q hpl
            | node rl rk rv rq rr =>
                -- two children: splice in the in-order successor
                have herase :
                    erase lt (PTree.node (.node ll lk lv lq lr) k v q
                        (.node rl rk rv rq rr)) k =
                      .node
                        (setParent (.node ll lk lv lq lr)
                          (some (leftmostEntry (.node rl rk rv rq rr) (rk, rv)).1))
                        (leftmostEntry (.node rl rk rv rq rr) (rk, rv)).1
                        (leftmostEntry (.node rl rk rv rq rr) (rk, rv)).2 q
                        (setParent
                          (erase lt (.node rl rk rv rq rr)
                            (leftmostEntry (.node rl rk rv rq rr) (rk, rv)).1)
                          (some (leftmostEntry (.node rl rk rv rq rr) (rk, rv)).1)) := by
                  rw [erase.eq_def]
                  simp only []
                  rw [if_true]
                obtain ⟨rest, hrest⟩ :=
                  inorder_eq_leftmost_cons rl rk rv rq rr (rk, rv)
                set s := leftmostEntry (.node rl rk rv rq rr) (rk, rv) with hs
                have hkeysR : keys (PTree.node rl rk rv rq rr) =
                    s.1 :: rest.map Prod.fst := by
                  rw [keys, hrest]
                  simp
                have hsmem : s.1 ∈ keys (PTree.node rl rk rv rq rr) := by
                  rw [hkeysR]
                  simp
                have hrestkeys : s.1 ∉ rest.map Prod.fst := by
                  have hnd := ordered_nodup hasym htr hr
                  rw [hkeysR] at hnd
                  exact (List.nodup_cons.mp hnd).1
                have hrestne : ∀ e ∈ rest, e.1 ≠ s.1 := by
                  intro e he hEq
                  exact hrestkeys (hEq ▸ List.mem_map_of_mem Prod.fst he)
                obtain ⟨h1r, h2r, h3r⟩ := ihr hr s.1 hsmem
                have hinr1 : inorder (erase lt (.node rl rk rv rq rr) s.1) =
                    rest := by
                  rw [h1r, hrest, List.filter_cons_of_neg (by simp),
                    filter_ne_of_all hrestne]
                have hmin : ∀ b ∈ rest.map Prod.fst, lt s.1 b = true := by
                  have hpw := ordered_pairwise_keys htr hr
                  rw [hkeysR, List.pairwise_cons] at hpw
                  exact hpw.1
                refine ⟨?_, ?_, ?_⟩
                · rw [herase, htarget, hrest]
                  simp only [inorder_node, inorder_setParent]
                  rw [hinr1]
                · rw [herase]
                  refine ⟨?_, ?_, ?_, ?_⟩
                  · rw [ordered_setParent]
                    exact hl
                  · rw [ordered_setParent]
                    exact h2r
                  · intro a ha
                    rw [keys_setParent] at ha
                    exact htr _ _ _ (hlk a ha) (hkr s.1 hsmem)
                  · intro b hb
                    rw [keys_setParent, keys, hinr1] at hb
                    exact hmin b hb
                · intro p hp
                  obtain ⟨hq, hpl, hpr⟩ := hp
                  rw [herase]
                  exact ⟨hq, parentOk_setParent _ hpl,
                    parentOk_setParent _ (h3r (some k) hpr)⟩
      · -- the key is not at this node: descend as `_find` does
        have hxkeys : x ∈ keys l ∨ x = k ∨ x ∈ keys r := by
          simpa using hx
        by_cases hxk : lt x k = true
        · have hxl : x ∈ keys l := by
            rcases hxkeys with h | h | h
            · exact h
            · exact absurd h.symm hk
            · have h2 := hasym _ _ (hkr x h)
              rw [h2] at hxk
              cases hxk
          obtain ⟨h1l, h2l, h3l⟩ := ihl hl x hxl
          have herase : erase lt (PTree.node l k v q r) x =
              .node (erase lt l x) k v q r := by
            rw [erase.eq_def]
            simp only []
            rw [if_neg hk, if_pos hxk]
          have hxnr : ∀ e ∈ inorder r, e.1 ≠ x := by
            intro e he hEq
            have hek := hkr e.1 (fst_mem_keys he)
            rw [hEq] at hek
            rw [hasym _ _ hek] at hxk
            cases hxk
          refine ⟨?_, ?_, ?_⟩
          · rw [herase]
            simp only [inorder_node]
            rw [h1l, List.filter_append,
              List.filter_cons_of_pos (by simpa using hk),
              filter_ne_of_all hxnr]
          · rw [herase, ordered_node_iff]
            refine ⟨h2l, hr, ?_, hkr⟩
            intro a ha
            obtain ⟨w, hw⟩ := mem_keys_iff.mp ha
            rw [h1l] at hw
            exact hlk a (mem_keys_iff.mpr ⟨w, (List.mem_filter.mp hw).1⟩)
          · intro p hp
            obtain ⟨hq, hpl, hpr⟩ := hp
            rw [herase]
            exact ⟨hq, h3l (some k) hpl, hpr⟩
        · by_cases hkx : lt k x = true
          · have hxr : x ∈ keys r := by
              rcases hxkeys with h | h | h
              · exact absurd (hlk x h) hxk
              · exact absurd h.symm hk
              · exact h
            obtain ⟨h1r, h2r, h3r⟩ := ihr hr x hxr
            have herase : erase lt (PTree.node l k v q r) x =
                .node l k v q (erase lt r x) := by
              rw [erase.eq_def]
              simp only []
              rw [if_neg hk, if_neg hxk, if_pos hkx]
            have hxnl : ∀ e ∈ inorder l, e.1 ≠ x := by
              intro e he hEq
              have hek := hlk e.1 (fst_mem_keys he)
              rw [hEq] at hek
              rw [hasym _ _ hek] at hkx
              cases hkx
            refine ⟨?_, ?_, ?_⟩
            · rw [herase]
              simp only [inorder_node]
              rw [h1r, List.filter_append,
                List.filter_cons_of_pos (by simpa using hk),
                filter_ne_of_all hxnl]
            · rw [herase, ordered_node_iff]
              refine ⟨hl, h2r, hlk, ?_⟩
              intro b hb
              obtain ⟨w, hw⟩ := mem_keys_iff.mp hb
              rw [h1r] at hw
              exact hkr b (mem_keys_iff.mpr ⟨w, (List.mem_filter.mp hw).1⟩)
            · intro p hp
              obtain ⟨hq, hpl, hpr⟩ := hp
              rw [herase]
              exact ⟨hq, hpl, h3r (some k) hpr⟩
          · -- `_find` would answer null, but the key is present: impossible
            exfalso
            rcases hxkeys with h | h | h
            · exact hxk (hlk x h)
            · exact hk h.symm
            · exact hkx (hkr x h)

end EraseLemmas

section InsertLemmas

variable [DecidableEq K] {lt : K → K → Bool} {x : K × V}

/-- Unfolding lemmas for the descent loop. -/
theorem insertGo_leaf (fuel : Nat) (ph : Bool) :
    insertGo lt x fuel ph (.leaf : PTree K V) =
      some (.node .leaf x.1 x.2 none .leaf) := by
  cases fuel <;> cases ph <;> rfl

theorem insertGo_zero (ph : Bool) (l : PTree K V) (k v q r) :
    insertGo lt x 0 ph (.node l k v q r) = none := by
  cases ph <;> rfl

theorem insertGo_succ_false (fuel : Nat) (l : PTree K V) (k v q r) :
    insertGo lt x (fuel + 1) false (.node l k v q r) =
      if lt k x.1 then
        match r with
        | .leaf => some (.node l k v q (.node .leaf x.1 x.2 (some k) .leaf))
        | .node rl rk rv rq rr =>
            (insertGo lt x fuel true (.node rl rk rv rq rr)).map
              (fun s => .node l k v q s)
      else insertGo lt x fuel true (.node l k v q r) := rfl

theorem insertGo_succ_true (fuel : Nat) (l : PTree K V) (k v q r) :
    insertGo lt x (fuel + 1) true (.node l k v q r) =
      if lt x.1 k then
        match l with
        | .leaf => some (.node (.node .leaf x.1 x.2 (some k) .leaf) k v q r)
        | .node ll lk lv lq lr =>
            (insertGo lt x fuel false (.node ll lk lv lq lr)).map
              (fun s => .node s k v q r)
      else insertGo lt x fuel false (.node l k v q r) := rfl

/-- With an asymmetric comparator the two sequential conditionals of the
C++ descent loop agree with a single three-way branch: any completed run of
the loop produces exactly the tree `insDet` describes.  (Without asymmetry
the two phases could pick different directions at the same node.) -/
theorem insertGo_eq_insDet (hasym : LtAsymm lt) :
    ∀ (fuel : Nat) (ph : Bool) (l : PTree K V) (k : K) (v : V)
      (q : Option K) (r : PTree K V) (u : PTree K V) (p : Option K),
      insertGo lt x fuel ph (.node l k v q r) = some u →
      u = insDet lt x p (.node l k v q r) := by
  intro fuel
  induction fuel with
  | zero =>
      intro ph l k v q r u p h
      rw [insertGo_zero] at h
      cases h
  | succ fuel ih =>
      intro ph l k v q r u p h
      cases ph with
      | false =>
          rw [insertGo_succ_false] at h
          by_cases h1 : lt k x.1 = true
          · rw [if_pos h1] at h
            have h2 : lt x.1 k = false := hasym _ _ h1
            rw [insDet, if_pos h1]
            cases r with
            | leaf =>
                simp only [] at h
                cases h
                rfl
            | node rl rk rv rq rr =>
                simp only [] at h
                cases hr : insertGo lt x fuel true (.node rl rk rv rq rr) with
                | none => rw [hr] at h; simp at h
                | some w =>
                    rw [hr] at h
                    simp only [Option.map_some'] at h
                    cases h
                    rw [ih true rl rk rv rq rr w (some k) hr]
          · rw [if_neg h1] at h
            exact ih true l k v q r u p h
      | true =>
          rw [insertGo_succ_true] at h
          by_cases h1 : lt x.1 k = true
          · rw [if_pos h1] at h
            have h2 : lt k x.1 = false := hasym _ _ h1
            rw [insDet, if_neg (by simp [h2]), if_pos h1]
            cases l with
            | leaf =>
                simp only [] at h
                cases h
                rfl
            | node ll lk lv lq lr =>
                simp only [] at h
                cases hl : insertGo lt x fuel false (.node ll lk lv lq lr) with
                | none => rw [hl] at h; simp at h
                | some w =>
                    rw [hl] at h
                    simp only [Option.map_some'] at h
                    cases h
                    rw [ih false ll lk lv lq lr w (some k) hl]
          · rw [if_neg h1] at h
            exact ih false l k v q r u p h

/-- A completed `insert` call computes `insStep` (find-guard, then the
three-way descent). -/
theorem insertFuel_eq_insStep (hasym : LtAsymm lt) {fuel : Nat}
    {t : PTree K V} {res : (K × V) × Bool × PTree K V}
    (h : insertFuel lt fuel t x = some res) :
    res.2.2 = insStep lt none t x := by
  rw [insertFuel] at h
  rw [insStep]
  cases hf : findNode lt x.1 t with
  | some e =>
      rw [hf] at h
      cases h
      rfl
  | none =>
      rw [hf] at h
      cases hg : insertGo lt x fuel false t with
      | none => rw [hg] at h; simp at h
      | some u =>
          rw [hg] at h
          simp only [Option.map_some'] at h
          cases h
          cases t with
          | leaf =>
              rw [insertGo_leaf] at hg
              cases hg
              rfl
          | node l k v q r =>
              exact insertGo_eq_insDet hasym fuel false l k v q r u none hg

/-- Keys after a deterministic insert: nothing appears beyond the old keys
and the inserted key. -/
theorem insDet_keys {p : Option K} {t : PTree K V} :
    ∀ a ∈ keys (insDet lt x p t), a ∈ keys t ∨ a = x.1 := by
  induction t generalizing p with
  | leaf => intro a ha; simp [insDet, keys] at ha; simp [ha]
  | node l k v q r ihl ihr =>
      intro a ha
      rw [insDet] at ha
      by_cases h1 : lt k x.1 = true
      · rw [if_pos h1] at ha
        rw [keys_node] at ha
        rcases List.mem_append.mp ha with h | h
        · exact Or.inl (by simp [h])
        · rcases List.mem_cons.mp h with h | h
          · exact Or.inl (by simp [h])
          · rcases ihr a h with h2 | h2
            · exact Or.inl (by simp [h2])
            · exact Or.inr h2
      · rw [if_neg h1] at ha
        by_cases h2 : lt x.1 k = true
        · rw [if_pos h2] at ha
          rw [keys_node] at ha
          rcases List.mem_append.mp ha with h | h
          · rcases ihl a h with h3 | h3
            · exact Or.inl (by simp [h3])
            · exact Or.inr h3
          · exact Or.inl (by simp [h])
        · rw [if_neg h2] at ha
          exact Or.inl ha

/-- The deterministic insert preserves the BST ordering invariant, for any
comparator: every placement is guarded by exactly the comparison the
invariant demands. -/
theorem insDet_ordered {p : Option K} {t : PTree K V}
    (h : Ordered lt t) : Ordered lt (insDet lt x p t) := by
  induction t generalizing p with
  | leaf => exact ⟨trivial, trivial, by simp [keys], by simp [keys]⟩
  | node l k v q r ihl ihr =>
      obtain ⟨hl, hr, hlk, hkr⟩ := h
      rw [insDet]
      by_cases h1 : lt k x.1 = true
      · rw [if_pos h1]
        refine ⟨hl, ihr hr, hlk, ?_⟩
        intro b hb
        rcases insDet_keys b hb with h2 | h2
        · exact hkr b h2
        · rw [h2]
          exact h1
      · rw [if_neg h1]
        by_cases h2 : lt x.1 k = true
        · rw [if_pos h2]
          refine ⟨ihl hl, hr, ?_, hkr⟩
          intro a ha
          rcases insDet_keys a ha with h3 | h3
          · exact hlk a h3
          · rw [h3]
            exact h2
        · rw [if_neg h2]
          exact ⟨hl, hr, hlk, hkr⟩

/-- One full `insert` call (find-guard included) preserves ordering. -/
theorem insStep_ordered {p : Option K} {t : PTree K V}
    (h : Ordered lt t) : Ordered lt (insStep lt p t x) := by
  rw [insStep]
  cases hf : findNode lt x.1 t with
  | some e => exact h
  | none => exact insDet_ordered h

/-- A completed sequence of `insert` calls computes the fold of the
deterministic step. -/
theorem insertAllF_eq_foldl (hasym : LtAsymm lt) {fuel : Nat} :
    ∀ (xs : List (K × V)) (t u : PTree K V),
      insertAllF lt fuel t xs = some u →
      u = List.foldl (insStep lt none) t xs := by
  intro xs
  induction xs with
  | nil =>
      intro t u h
      rw [insertAllF] at h
      cases h
      rfl
  | cons y ys ih =>
      intro t u h
      rw [insertAllF] at h
      cases hy : insertFuel lt fuel t y with
      | none => rw [hy] at h; cases h
      | some res =>
          rw [hy] at h
          obtain ⟨e, b, t1⟩ := res
          have h1 : t1 = insStep lt none t y :=
            insertFuel_eq_insStep hasym hy
          rw [List.foldl_cons, ← h1]
          exact ih t1 u h

/-- When the comparator relates the new key to every key of the tree in at
least one direction, the two-conditional descent loop makes downward
progress on every iteration and returns within `2 * height` phase steps
(each C++ loop iteration is at most two phases). -/
theorem insertGo_total {t : PTree K V}
    (hdec : ∀ k ∈ keys t, lt x.1 k = true ∨ lt k x.1 = true) :
    ∀ (f : Nat) (ph : Bool), 2 * height t ≤ f →
      (insertGo lt x f ph t).isSome = true := by
  induction t with
  | leaf =>
      intro f ph _
      rw [insertGo_leaf]
      rfl
  | node l k v q r ihl ihr =>
      have hdecl : ∀ a ∈ keys l, lt x.1 a = true ∨ lt a x.1 = true :=
        fun a ha => hdec a (by simp [ha])
      have hdecr : ∀ a ∈ keys r, lt x.1 a = true ∨ lt a x.1 = true :=
        fun a ha => hdec a (by simp [ha])
      have hdk : lt x.1 k = true ∨ lt k x.1 = true := hdec k (by simp)
      intro f ph hf
      rw [height] at hf
      obtain ⟨f1, rfl⟩ : ∃ f1, f = f1 + 1 := ⟨f - 1, by omega⟩
      cases ph with
      | false =>
          rw [insertGo_succ_false]
          by_cases h1 : lt k x.1 = true
          · rw [if_pos h1]
            cases r with
            | leaf => rfl
            | node rl rk rv rq rr =>
                rw [Option.isSome_map']
                exact ihr hdecr f1 true (by simp [height] at hf ⊢; omega)
          · rw [if_neg h1]
            have hxk : lt x.1 k = true := by
              rcases hdk with h | h
              · exact h
              · exact absurd h h1
            obtain ⟨f2, rfl⟩ : ∃ f2, f1 = f2 + 1 := ⟨f1 - 1, by omega⟩
            rw [insertGo_succ_true, if_pos hxk]
            cases l with
            | leaf => rfl
            | node ll lk lv lq lr =>
                rw [Option.isSome_map']
                exact ihl hdecl f2 false (by simp [height] at hf ⊢; omega)
      | true =>
          rw [insertGo_succ_true]
          by_cases h1 : lt x.1 k = true
          · rw [if_pos h1]
            cases l with
            | leaf => rfl
            | node ll lk lv lq lr =>
                rw [Option.isSome_map']
                exact ihl hdecl f1 false (by simp [height] at hf ⊢; omega)
          · rw [if_neg h1]
            have hkx : lt k x.1 = true := by
              rcases hdk with h | h
              · exact absurd h h1
              · exact h
            obtain ⟨f2, rfl⟩ : ∃ f2, f1 = f2 + 1 := ⟨f1 - 1, by omega⟩
            rw [insertGo_succ_false, if_pos hkx]
            cases r with
            | leaf => rfl
            | node rl rk rv rq rr =>
                rw [Option.isSome_map']
                exact ihr hdecr f2 true (by simp [height] at hf ⊢; omega)

/-- With `absLt`, inserting the key `-2` into the tree holding `2` leaves
both loop conditionals false at the root forever: the loop body never
changes `tmp`, whatever the fuel. -/
theorem insertGo_absLt_spins :
    ∀ (f : Nat) (ph : Bool),
      insertGo absLt ((-2 : Int), (0 : Int)) f ph absTree = none := by
  intro f
  induction f with
  | zero =>
      intro ph
      cases ph <;> rfl
  | succ f ih =>
      intro ph
      show insertGo absLt ((-2 : Int), (0 : Int)) (f + 1) ph
        (.node .leaf 2 20 none .leaf) = none
      cases ph with
      | false =>
          rw [insertGo_succ_false, if_neg (by decide)]
          exact ih true
      | true =>
          rw [insertGo_succ_true, if_neg (by decide)]
          exact ih false

end InsertLemmas

section BalanceLemmas

variable [DecidableEq K] {lt : K → K → Bool} {fuel : Nat}

theorem midOrderL_nil : midOrderL ([] : List (K × V)) = [] := by
  rw [midOrderL]
  rfl

theorem midOrderL_cons {l : List (K × V)} {m : Nat} (hlen : l.length = m)
    (h0 : ¬ m = 0) (hm : m / 2 < l.length) :
    midOrderL l =
      l.get ⟨m / 2, hm⟩ ::
        (midOrderL (l.take (m / 2)) ++ midOrderL (l.drop (m / 2 + 1))) := by
  subst hlen
  rw [midOrderL, dif_neg h0]

theorem buildBal_nil (p : Option K) :
    buildBal p ([] : List (K × V)) = (.leaf : PTree K V) := by
  rw [buildBal]
  rfl

theorem buildBal_cons (p : Option K) {l : List (K × V)} {m : Nat}
    (hlen : l.length = m) (h0 : ¬ m = 0) (hm : m / 2 < l.length) :
    buildBal p l =
      .node (buildBal (some (l.get ⟨m / 2, hm⟩).1) (l.take (m / 2)))
        (l.get ⟨m / 2, hm⟩).1 (l.get ⟨m / 2, hm⟩).2 p
        (buildBal (some (l.get ⟨m / 2, hm⟩).1) (l.drop (m / 2 + 1))) := by
  subst hlen
  rw [buildBal, dif_neg h0]

theorem midOrderL_subset :
    ∀ (n : Nat) (l : List (K × V)), l.length ≤ n →
      ∀ y ∈ midOrderL l, y ∈ l := by
  intro n
  induction n with
  | zero =>
      intro l hl y hy
      have h1 : l.length = 0 := by omega
      rw [List.length_eq_zero.mp h1, midOrderL_nil] at hy
      cases hy
  | succ n ih =>
      intro l hl y hy
      by_cases h0 : l.length = 0
      · rw [List.length_eq_zero.mp h0, midOrderL_nil] at hy
        cases hy
      · have hm : l.length / 2 < l.length :=
          Nat.div_lt_self (by omega) one_lt_two
        rw [midOrderL_cons rfl h0 hm] at hy
        rcases List.mem_cons.mp hy with hy | hy
        · rw [hy]
          exact List.get_mem l _ hm
        · rcases List.mem_append.mp hy with hy | hy
          · have hmem := ih (l.take (l.length / 2))
              (by simp [List.length_take]; omega) y hy
            exact List.mem_of_mem_take hmem
          · have hmem := ih (l.drop (l.length / 2 + 1))
              (by simp [List.length_drop]; omega) y hy
            exact List.mem_of_mem_drop hmem

theorem insertAllF_append {t : PTree K V} {xs ys : List (K × V)} :
    insertAllF lt fuel t (xs ++ ys) =
      (insertAllF lt fuel t xs).bind (fun t1 => insertAllF lt fuel t1 ys) := by
  induction xs generalizing t with
  | nil => simp [insertAllF]
  | cons z zs ih =>
      rw [List.cons_append, insertAllF, insertAllF]
      cases insertFuel lt fuel t z with
      | none => rfl
      | some res => exact ih

/-- `_balance(nodes, s, e)` performs exactly the sequence of `insert`
calls listed by `midOrderL` on the slice `nodes[s..e)`. -/
theorem balAux_flat :
    ∀ (n s e : Nat) (t : PTree K V) (nodes : List (K × V)),
      e - s ≤ n → e ≤ nodes.length →
      balAux lt fuel nodes n s e t =
        insertAllF lt fuel t (midOrderL ((nodes.drop s).take (e - s))) := by
  intro n
  induction n with
  | zero =>
      intro s e t nodes hn he
      have h0 : ¬ s < e := by omega
      have h1 : e - s = 0 := by omega
      rw [balAux, if_neg h0, h1]
      simp [midOrderL_nil, insertAllF]
  | succ n ih =>
      intro s e t nodes hn he
      by_cases hse : s < e
      · have hlen : ((nodes.drop s).take (e - s)).length = e - s := by
          simp [List.length_take, List.length_drop]
          omega
        have hm2 : (e - s) / 2 < ((nodes.drop s).take (e - s)).length := by
          rw [hlen]
          exact Nat.div_lt_self (by omega) one_lt_two
        have hml : (s + e) / 2 < nodes.length := by omega
        have hidx2 : s + (e - s) / 2 = (s + e) / 2 := by omega
        have hget : nodes[(s + e) / 2]? =
            some (((nodes.drop s).take (e - s)).get ⟨(e - s) / 2, hm2⟩) := by
          rw [List.getElem?_eq_getElem hml]
          rw [List.get_eq_getElem, List.getElem_take, List.getElem_drop]
          simp [hidx2]
        have hleft : ((nodes.drop s).take (e - s)).take ((e - s) / 2) =
            (nodes.drop s).take ((s + e) / 2 - s) := by
          rw [List.take_take]
          congr 1
          omega
        have hright : ((nodes.drop s).take (e - s)).drop ((e - s) / 2 + 1) =
            (nodes.drop ((s + e) / 2 + 1)).take (e - ((s + e) / 2 + 1)) := by
          have h3 : e - s - ((e - s) / 2 + 1) = e - ((s + e) / 2 + 1) := by omega
          have h4 : s + ((e - s) / 2 + 1) = (s + e) / 2 + 1 := by omega
          rw [List.drop_take, List.drop_drop, h3, h4]
        rw [balAux, if_pos hse]
        rw [midOrderL_cons hlen (by omega) hm2]
        rw [insertAllF]
        simp only [hget]
        cases hins : insertFuel lt fuel t
            (((nodes.drop s).take (e - s)).get ⟨(e - s) / 2, hm2⟩) with
        | none => rfl
        | some res =>
            obtain ⟨e0, b0, t1⟩ := res
            simp only []
            rw [insertAllF_append, hleft]
            rw [ih s ((s + e) / 2) t1 nodes (by omega) (by omega)]
            cases hb : insertAllF lt fuel t1
                (midOrderL ((nodes.drop s).take ((s + e) / 2 - s))) with
            | none => rfl
            | some t2 =>
                simp only [Option.some_bind]
                rw [ih ((s + e) / 2 + 1) e t2 nodes (by omega) (by omega)]
                rw [hright]
      · have h0 : e - s = 0 := by omega
        rw [balAux, if_neg hse, h0]
        simp [midOrderL_nil, insertAllF]

theorem buildBal_inorder :
    ∀ (n : Nat) (l : List (K × V)) (p : Option K), l.length ≤ n →
      inorder (buildBal p l) = l := by
  intro n
  induction n with
  | zero =>
      intro l p hl
      have h1 : l.length = 0 := by omega
      rw [List.length_eq_zero.mp h1, buildBal_nil]
      rfl
  | succ n ih =>
      intro l p hl
      by_cases h0 : l.length = 0
      · rw [List.length_eq_zero.mp h0, buildBal_nil]
        rfl
      · have hm : l.length / 2 < l.length :=
          Nat.div_lt_self (by omega) one_lt_two
        rw [buildBal_cons p rfl h0 hm, inorder_node]
        rw [ih _ _ (by simp [List.length_take]; omega),
          ih _ _ (by simp [List.length_drop]; omega)]
        conv_rhs => rw [← List.take_append_drop (l.length / 2) l]
        congr 1
        rw [List.drop_eq_getElem_cons hm, List.get_eq_getElem]

/-- The height of the median-first reinsertion tree is at most
`⌈log2 (n + 1)⌉`. -/
theorem buildBal_height :
    ∀ (n : Nat) (l : List (K × V)) (p : Option K), l.length ≤ n →
      height (buildBal p l) ≤ Nat.clog 2 (l.length + 1) := by
  intro n
  induction n with
  | zero =>
      intro l p hl
      have h1 : l.length = 0 := by omega
      rw [List.length_eq_zero.mp h1, buildBal_nil]
      simp [height]
  | succ n ih =>
      intro l p hl
      by_cases h0 : l.length = 0
      · rw [List.length_eq_zero.mp h0, buildBal_nil]
        simp [height]
      · have hm : l.length / 2 < l.length :=
          Nat.div_lt_self (by omega) one_lt_two
        rw [buildBal_cons p rfl h0 hm, height]
        have h1 := ih (l.take (l.length / 2))
          (some (l.get ⟨l.length / 2, hm⟩).1) (by simp [List.length_take]; omega)
        have h2 := ih (l.drop (l.length / 2 + 1))
          (some (l.get ⟨l.length / 2, hm⟩).1) (by simp [List.length_drop]; omega)
        have hlt : (l.take (l.length / 2)).length = l.length / 2 := by
          simp [List.length_take]
          omega
        have hld : (l.drop (l.length / 2 + 1)).length =
            l.length - (l.length / 2 + 1) := by
          simp [List.length_drop]
        rw [hlt] at h1
        rw [hld] at h2
        have hrec : Nat.clog 2 (l.length + 1) =
            Nat.clog 2 (l.length / 2 + 1) + 1 := by
          rw [Nat.clog_of_two_le one_lt_two (by omega)]
          congr 2
          omega
        have h2a : Nat.clog 2 (l.length - (l.length / 2 + 1) + 1) ≤
            Nat.clog 2 (l.length / 2 + 1) :=
          Nat.clog_mono_right 2 (by omega)
        rw [hrec]
        omega

/-- Routing: a batch of inserts whose keys all compare below `k` lands
entirely in the left subtree. -/
theorem foldl_insStep_left (hasym : LtAsymm lt) {k : K}
    {ys : List (K × V)} (h : ∀ y ∈ ys, lt y.1 k = true) :
    ∀ (p : Option K) (l : PTree K V) (v : V) (q : Option K) (r : PTree K V),
      List.foldl (insStep lt p) (.node l k v q r) ys =
        .node (List.foldl (insStep lt (some k)) l ys) k v q r := by
  induction ys with
  | nil => intro p l v q r; rfl
  | cons y ys ih =>
      intro p l v q r
      have hyk : lt y.1 k = true := h y (by simp)
      have hky : lt k y.1 = false := hasym _ _ hyk
      have hne : ¬ k = y.1 := by
        intro hEq
        rw [← hEq] at hyk
        simp [hasym.irrefl k] at hyk
      rw [List.foldl_cons, List.foldl_cons]
      have hstep : insStep lt p (.node l k v q r) y =
          .node (insStep lt (some k) l y) k v q r := by
        rw [insStep, insStep, findNode, if_neg hne, if_pos hyk]
        cases hf : findNode lt y.1 l with
        | some e => rfl
        | none =>
            rw [insDet, if_neg (by simp [hky]), if_pos hyk]
      rw [hstep]
      exact ih (fun z hz => h z (by simp [hz])) p _ v q r

/-- Routing: a batch of inserts whose keys all compare above `k` lands
entirely in the right subtree. -/
theorem foldl_insStep_right (hasym : LtAsymm lt) {k : K}
    {ys : List (K × V)} (h : ∀ y ∈ ys, lt k y.1 = true) :
    ∀ (p : Option K) (l : PTree K V) (v : V) (q : Option K) (r : PTree K V),
      List.foldl (insStep lt p) (.node l k v q r) ys =
        .node l k v q (List.foldl (insStep lt (some k)) r ys) := by
  induction ys with
  | nil => intro p l v q r; rfl
  | cons y ys ih =>
      intro p l v q r
      have hky : lt k y.1 = true := h y (by simp)
      have hyk : lt y.1 k = false := hasym _ _ hky
      have hne : ¬ k = y.1 := by
        intro hEq
        rw [← hEq] at hky
        simp [hasym.irrefl k] at hky
      rw [List.foldl_cons, List.foldl_cons]
      have hstep : insStep lt p (.node l k v q r) y =
          .node l k v q (insStep lt (some k) r y) := by
        rw [insStep, insStep, findNode, if_neg hne, if_neg (by simp [hyk]),
          if_pos hky]
        cases hf : findNode lt y.1 r with
        | some e => rfl
        | none =>
            rw [insDet, if_pos hky]
      rw [hstep]
      exact ih (fun z hz => h z (by simp [hz])) p l v q _

/-- The median-first insert sequence, executed insert by insert from an
empty tree, builds exactly the balanced tree `buildBal`. -/
theorem foldl_midOrderL_buildBal (hasym : LtAsymm lt) :
    ∀ (n : Nat) (l : List (K × V)), l.length ≤ n →
      List.Pairwise (fun a b : K × V => lt a.1 b.1 = true) l →
      ∀ p : Option K,
        List.foldl (insStep lt p) .leaf (midOrderL l) = buildBal p l := by
  intro n
  induction n with
  | zero =>
      intro l hl hpw p
      have h1 : l.length = 0 := by omega
      rw [List.length_eq_zero.mp h1, midOrderL_nil, buildBal_nil]
      rfl
  | succ n ih =>
      intro l hl hpw p
      by_cases h0 : l.length = 0
      · rw [List.length_eq_zero.mp h0, midOrderL_nil, buildBal_nil]
        rfl
      · have hm : l.length / 2 < l.length :=
          Nat.div_lt_self (by omega) one_lt_two
        have hsplit : l = l.take (l.length / 2) ++
            l.get ⟨l.length / 2, hm⟩ :: l.drop (l.length / 2 + 1) := by
          conv_lhs => rw [← List.take_append_drop (l.length / 2) l]
          congr 1
          rw [List.drop_eq_getElem_cons hm, List.get_eq_getElem]
        have hpw2 : List.Pairwise (fun a b : K × V => lt a.1 b.1 = true)
            (l.take (l.length / 2) ++
              l.get ⟨l.length / 2, hm⟩ :: l.drop (l.length / 2 + 1)) := by
          rw [← hsplit]
          exact hpw
        rw [List.pairwise_append] at hpw2
        obtain ⟨hpwA, hpwCB, hcross⟩ := hpw2
        rw [List.pairwise_cons] at hpwCB
        obtain ⟨hcB, hpwB⟩ := hpwCB
        have hA : ∀ y ∈ l.take (l.length / 2),
            lt y.1 (l.get ⟨l.length / 2, hm⟩).1 = true :=
          fun y hy => hcross y hy _ (List.mem_cons_self _ _)
        rw [midOrderL_cons rfl h0 hm, List.foldl_cons, List.foldl_append]
        have hstep1 : insStep lt p .leaf (l.get ⟨l.length / 2, hm⟩) =
            .node .leaf (l.get ⟨l.length / 2, hm⟩).1
              (l.get ⟨l.length / 2, hm⟩).2 p .leaf := rfl
        rw [hstep1]
        rw [foldl_insStep_left hasym
          (fun y hy => hA y (midOrderL_subset _ _ le_rfl y hy))]
        rw [foldl_insStep_right hasym
          (fun y hy => hcB y (midOrderL_subset _ _ le_rfl y hy))]
        rw [ih (l.take (l.length / 2)) (by simp [List.length_take]; omega)
          hpwA (some (l.get ⟨l.length / 2, hm⟩).1)]
        rw [ih (l.drop (l.length / 2 + 1)) (by simp [List.length_drop]; omega)
          hpwB (some (l.get ⟨l.length / 2, hm⟩).1)]
        rw [buildBal_cons p rfl h0 hm]

/-- Any completed `balance()` run on an ordered tree rebuilds exactly the
balanced tree of its in-order entry sequence. -/
theorem balanceFuel_spec (hasym : LtAsymm lt) (htr : LtTrans lt)
    {t u : PTree K V} (hord : Ordered lt t)
    (hbal : balanceFuel lt fuel t = some u) :
    u = buildBal none (inorder t) := by
  rw [balanceFuel] at hbal
  rw [balAux_flat (inorder t).length 0 (inorder t).length .leaf (inorder t)
    (by omega) (by omega)] at hbal
  rw [List.drop_zero, Nat.sub_zero, List.take_length] at hbal
  have h1 := insertAllF_eq_foldl hasym _ _ _ hbal
  rw [h1]
  exact foldl_midOrderL_buildBal hasym (inorder t).length (inorder t) le_rfl
    (ordered_pairwise htr hord) none

/-- `balance()` characterization needing only sortedness of the collected
entry sequence (the form reusable after a first `balance()`). -/
theorem balanceFuel_spec_pw (hasym : LtAsymm lt) {t u : PTree K V}
    (hpw : List.Pairwise (fun a b : K × V => lt a.1 b.1 = true) (inorder t))
    (hbal : balanceFuel lt fuel t = some u) :
    u = buildBal none (inorder t) := by
  rw [balanceFuel] at hbal
  rw [balAux_flat (inorder t).length 0 (inorder t).length .leaf (inorder t)
    (by omega) (by omega)] at hbal
  rw [List.drop_zero, Nat.sub_zero, List.take_length] at hbal
  have h1 := insertAllF_eq_foldl hasym _ _ _ hbal
  rw [h1]
  exact foldl_midOrderL_buildBal hasym (inorder t).length (inorder t) le_rfl
    hpw none

/-- Folding any batch of full `insert` calls preserves the ordering
invariant. -/
theorem foldl_insStep_ordered {p : Option K} :
    ∀ (xs : List (K × V)) (t0 : PTree K V), Ordered lt t0 →
      Ordered lt (List.foldl (insStep lt p) t0 xs) := by
  intro xs
  induction xs with
  | nil => intro t0 h; exact h
  | cons y ys ih =>
      intro t0 h
      rw [List.foldl_cons]
      exact ih _ (insStep_ordered h)

end BalanceLemmas

section ComparatorInstances

/-- `std::less<Nat>` is asymmetric. -/
theorem natLtB_asymm : LtAsymm natLtB := by
  intro a b h
  simp [natLtB] at h ⊢
  omega

/-- `std::less<Nat>` is transitive. -/
theorem natLtB_trans : LtTrans natLtB := by
  intro a b c h1 h2
  simp [natLtB] at h1 h2 ⊢
  omega

/-- The absolute-value comparator is irreflexive and asymmetric. -/
theorem absLt_asymm : LtAsymm absLt := by
  intro a b h
  simp [absLt] at h ⊢
  omega

/-- The absolute-value comparator is transitive. -/
theorem absLt_trans : LtTrans absLt := by
  intro a b c h1 h2
  simp [absLt] at h1 h2 ⊢
  omega

/-- Incomparability under the absolute-value comparator is transitive, so
`absLt` is a strict weak ordering. -/
theorem absLt_incomp_trans :
    ∀ a b c : Int, absLt a b = false → absLt b a = false →
      absLt b c = false → absLt c b = false →
      absLt a c = false ∧ absLt c a = false := by
  intro a b c h1 h2 h3 h4
  simp [absLt] at h1 h2 h3 h4 ⊢
  omega

end ComparatorInstances

section PrintLemmas

theorem intercalate_go_eq (a : String) (t : List String) :
    String.intercalate.go a sepSpace t =
      a ++ String.join (t.map (fun w => sepSpace ++ w)) := by
  induction t generalizing a with
  | nil =>
      apply String.ext
      simp [String.intercalate.go]
  | cons b bs ih =>
      apply String.ext
      simp [String.intercalate.go, ih]

theorem flatten_sep_shift (as : List String) :
    sepSpace.data ++ (as.map (fun a => a.data ++ sepSpace.data)).flatten
      = (as.map (fun a => sepSpace.data ++ a.data)).flatten ++ sepSpace.data := by
  induction as with
  | nil => simp
  | cons a t ih =>
      simp only [List.map_cons, List.flatten_cons, List.append_assoc]
      rw [ih]

theorem join_map_sep (l : List String) :
    String.join (l.map (fun a => a ++ sepSpace)) =
      String.intercalate sepSpace l ++ (if l.isEmpty then "" else sepSpace) := by
  cases l with
  | nil =>
      apply String.ext
      simp [String.intercalate]
  | cons a as =>
      apply String.ext
      simp [String.intercalate, intercalate_go_eq, Function.comp]
      exact flatten_sep_shift as

end PrintLemmas

section Claims

/-- Claim C1: for every tree satisfying the BST-ordering and
parent-consistency invariants and every key `x` present in the tree (with
the comparator a strict weak ordering, here asymmetry and transitivity),
`erase(x)` removes exactly the entry keyed `x`, leaves every other entry
and its relative order unchanged, and restores both invariants; the proof
covers the leaf, one-child and two-children structural cases. -/
theorem bst_erase_correct [DecidableEq K] {lt : K → K → Bool}
    (hasym : LtAsymm lt) (htr : LtTrans lt) {t : PTree K V}
    (hord : Ordered lt t) (hpar : ParentOk none t) {x : K}
    (hmem : x ∈ keys t) :
    inorder (erase lt t x) =
      (inorder t).filter (fun e => decide (e.1 ≠ x)) ∧
    Ordered lt (erase lt t x) ∧ ParentOk none (erase lt t x) := by
  obtain ⟨h1, h2, h3⟩ := erase_spec hasym htr t hord x hmem
  exact ⟨h1, h2, h3 none hpar⟩

/-- Witness for C1: erasing the root key 5 (two-children case) of the
balanced example tree over keys 1, 3, 4, 5, 7, 8, 9. -/
theorem bst_erase_correct_witness :
    inorder (erase natLtB tree7 5) =
      (inorder tree7).filter (fun e => decide (e.1 ≠ 5)) ∧
    Ordered natLtB (erase natLtB tree7 5) ∧
    ParentOk none (erase natLtB tree7 5) :=
  bst_erase_correct natLtB_asymm natLtB_trans (by decide) (by decide)
    (by decide)

/-- Claim C2: every completed sequence of `insert` calls applied to an
initially empty tree yields a tree satisfying the BST-ordering invariant,
and hence in-order iteration lists its keys in strictly ascending
comparator order. -/
theorem bst_insert_sequence_ordered [DecidableEq K] {lt : K → K → Bool}
    (hasym : LtAsymm lt) (htr : LtTrans lt) {fuel : Nat}
    {xs : List (K × V)} {t : PTree K V}
    (h : insertAllF lt fuel .leaf xs = some t) :
    Ordered lt t ∧ List.Pairwise (fun a b : K => lt a b = true) (keys t) := by
  have h1 := insertAllF_eq_foldl hasym xs .leaf t h
  rw [h1]
  have h2 : Ordered lt (List.foldl (insStep lt none) .leaf xs) :=
    foldl_insStep_ordered xs .leaf trivial
  exact ⟨h2, ordered_pairwise_keys htr h2⟩

/-- Witness for C2: inserting keys 2, 1, 3 into the empty tree. -/
theorem bst_insert_sequence_ordered_witness :
    Ordered natLtB bal3 ∧
    List.Pairwise (fun a b : Nat => natLtB a b = true) (keys bal3) :=
  bst_insert_sequence_ordered natLtB_asymm natLtB_trans
    (show insertAllF natLtB 10 .leaf [(2, 20), (1, 10), (3, 30)] = some bal3
      by decide)

/-- Counterexample to claim C3: under the absolute-value comparator (a
strict weak ordering), searching `-2` in the tree holding key `2` reaches
the root, where neither `comparator(-2, 2)` nor `comparator(2, -2)` holds,
yet `find` answers the end iterator (`none`) instead of that node, because
the code tests `==` first and `-2 ≠ 2`. -/
theorem bst_find_equivalent_key_counterexample :
    absLt (-2 : Int) 2 = false ∧ absLt 2 (-2 : Int) = false ∧
    (-2 : Int) ≠ 2 ∧
    inorder absTree = [((2 : Int), (20 : Int))] ∧
    findNode absLt (-2 : Int) absTree = none := by
  refine ⟨by decide, by decide, by decide, by decide, ?_⟩
  rfl

/-- Claim C3 as amended: `find` descends with the comparator but decides a
hit with the key equality operator tested first at each visited node, so
any returned iterator points at an entry whose key is equal (not merely
comparator-equivalent) to the searched key. -/
theorem bst_find_hit_has_equal_key [DecidableEq K] {lt : K → K → Bool}
    {t : PTree K V} {x : K} {e : K × V}
    (h : findNode lt x t = some e) : e.1 = x ∧ e ∈ inorder t :=
  findNode_sound h

/-- Witness for the amended C3: finding key 2 in the three-node tree. -/
theorem bst_find_hit_has_equal_key_witness :
    ((2 : Nat), (20 : Nat)).1 = 2 ∧ ((2 : Nat), (20 : Nat)) ∈ inorder bal3 :=
  bst_find_hit_has_equal_key
    (show findNode natLtB 2 bal3 = some (2, 20) by decide)

/-- Claim C4: inserting an entry whose key is already present returns the
iterator to the existing node (carrying the old value, not the new one)
and `false`, and leaves the tree unchanged. -/
theorem bst_insert_duplicate_rejected [DecidableEq K] {lt : K → K → Bool}
    (hasym : LtAsymm lt) {t : PTree K V} (hord : Ordered lt t) {k : K}
    {w : V} (hmem : (k, w) ∈ inorder t) (v : V) (fuel : Nat) :
    insertFuel lt fuel t (k, v) = some ((k, w), false, t) := by
  have hf : findNode lt (k, v).1 t = some (k, w) :=
    findNode_present hasym hord hmem
  rw [insertFuel, hf]

/-- Witness for C4: re-inserting key 2 with a different value. -/
theorem bst_insert_duplicate_rejected_witness :
    insertFuel natLtB 5 bal3 (2, 99) = some ((2, 20), false, bal3) :=
  bst_insert_duplicate_rejected natLtB_asymm (by decide) (by decide) 99 5

/-- Claim C5: a completed `balance()` on an ordered tree leaves the entry
sequence (hence the set of key/value pairs) exactly unchanged and yields a
tree of height at most `⌈log2 (n + 1)⌉` where `n` is the number of
entries, whatever the prior shape. -/
theorem bst_balance_content_and_height [DecidableEq K] {lt : K → K → Bool}
    (hasym : LtAsymm lt) (htr : LtTrans lt) {t u : PTree K V} {fuel : Nat}
    (hord : Ordered lt t) (h : balanceFuel lt fuel t = some u) :
    inorder u = inorder t ∧ height u ≤ Nat.clog 2 (size t + 1) := by
  have hu : u = buildBal none (inorder t) :=
    balanceFuel_spec hasym htr hord h
  constructor
  · rw [hu]
    exact buildBal_inorder _ _ _ le_rfl
  · rw [hu]
    exact buildBal_height (inorder t).length (inorder t) none le_rfl

/-- Witness for C5: balancing the right-leaning chain over keys 1, 2, 3. -/
theorem bst_balance_content_and_height_witness :
    inorder bal3 = inorder chain3 ∧
    height bal3 ≤ Nat.clog 2 (size chain3 + 1) :=
  bst_balance_content_and_height natLtB_asymm natLtB_trans (by decide)
    (show balanceFuel natLtB 20 chain3 = some bal3 by decide)

/-- Counterexample to claim C6: the absolute-value comparator is a strict
weak ordering (asymmetric, transitive, with transitive incomparability),
yet `insert((-2, 0))` on the tree holding key `2` never terminates: both
loop conditionals are false at the root, so the loop repeats with `tmp`
unchanged forever. -/
theorem bst_insert_swo_nontermination :
    LtAsymm absLt ∧ LtTrans absLt ∧
    (∀ a b c : Int, absLt a b = false → absLt b a = false →
      absLt b c = false → absLt c b = false →
      absLt a c = false ∧ absLt c a = false) ∧
    ¬ InsertTerminates absLt absTree ((-2 : Int), 0) := by
  refine ⟨absLt_asymm, absLt_trans, absLt_incomp_trans, ?_⟩
  rintro ⟨fuel, r, hr⟩
  rw [insertFuel] at hr
  have hf : findNode absLt ((-2 : Int), (0 : Int)).1 absTree = none := rfl
  rw [hf, insertGo_absLt_spins fuel false] at hr
  cases hr

/-- Claim C6 as amended: `insert` terminates whenever the comparator
relates the new key to every key of the tree in at least one direction
(true for any strict total order, but not for every strict weak ordering);
the descent then makes downward progress on every loop iteration, so fuel
proportional to the tree height (two comparison phases per level) makes
the loop return. -/
theorem bst_insert_terminates_when_comparable [DecidableEq K]
    {lt : K → K → Bool} {t : PTree K V} {x : K × V}
    (hdec : ∀ k ∈ keys t, lt x.1 k = true ∨ lt k x.1 = true) :
    (insertFuel lt (2 * height t + 2) t x).isSome = true := by
  rw [insertFuel]
  cases hf : findNode lt x.1 t with
  | some e => rfl
  | none =>
      rw [Option.isSome_map']
      exact insertGo_total hdec (2 * height t + 2) false (by omega)

/-- Witness for the amended C6: inserting key 4 into the three-node tree
terminates within the height-derived fuel bound. -/
theorem bst_insert_terminates_when_comparable_witness :
    (insertFuel natLtB (2 * height bal3 + 2) bal3 ((4 : Nat), (0 : Nat))).isSome
      = true :=
  bst_insert_terminates_when_comparable (by decide)

/-- Claim C7: streaming a tree writes exactly its keys in ascending
comparator order, each key followed by one single space (so consecutive
keys are separated by a single space and the output ends with the single
trailing separator after the last key), with no values and no other
markers written. -/
theorem bst_print_keys_ascending [DecidableEq K] {lt : K → K → Bool}
    (htr : LtTrans lt) {t : PTree K V} (hord : Ordered lt t)
    (s : K → String) :
    printTree s t =
      String.intercalate sepSpace ((keys t).map s) ++
        (if (keys t).isEmpty then "" else sepSpace) ∧
    List.Pairwise (fun a b : K => lt a b = true) (keys t) := by
  constructor
  · have hmap : (inorder t).map (fun e => s e.1 ++ " ") =
        ((keys t).map s).map (fun a => a ++ sepSpace) := by
      rw [keys, List.map_map, List.map_map]
      rfl
    rw [printTree, hmap, join_map_sep]
    have hemp : (List.map s (keys t)).isEmpty = (keys t).isEmpty := by
      cases keys t <;> rfl
    rw [hemp]
  · exact ordered_pairwise_keys htr hord

/-- Witness for C7: printing the three-node tree. -/
theorem bst_print_keys_ascending_witness :
    printTree (fun k => toString k) bal3 =
      String.intercalate sepSpace ((keys bal3).map (fun k => toString k)) ++
        (if (keys bal3).isEmpty then "" else sepSpace) ∧
    List.Pairwise (fun a b : Nat => natLtB a b = true) (keys bal3) :=
  bst_print_keys_ascending natLtB_trans (by decide) (fun k => toString k)

/-- Claim C8 (code bug): self-assignment `t = t` does not preserve the
contents.  The copy-assignment body runs `root.reset()` before copying
from its argument; when the argument aliases `*this` the copy constructor
then copies an already-cleared tree, so a non-empty tree becomes empty. -/
theorem bst_self_assignment_clears :
    copyAssign (PTree.node .leaf (1 : Nat) (10 : Nat) none .leaf) true
        (PTree.node .leaf (1 : Nat) (10 : Nat) none .leaf) = PTree.leaf ∧
    inorder (PTree.node .leaf (1 : Nat) (10 : Nat) none .leaf) ≠ [] := by
  constructor
  · rfl
  · decide

/-- Claim C9: `emplace(args...)` constructs the entry pair from its
arguments and forwards it to `insert`; the returned iterator entry,
`inserted` flag and resulting tree are those of the corresponding
`insert(pair(args...))` call.  The C++ member is a one-line forward, so
the equivalence is definitional. -/
theorem bst_emplace_equals_insert [DecidableEq K] (lt : K → K → Bool)
    (fuel : Nat) (t : PTree K V) (k : K) (v : V) :
    emplace lt fuel t k v = insertFuel lt fuel t (k, v) := rfl

/-- Claim C10: `balance()` is idempotent: any completed second `balance()`
returns a tree identical, node for node (children, entries and parent
pointers), to the result of the first. -/
theorem bst_balance_idempotent [DecidableEq K] {lt : K → K → Bool}
    (hasym : LtAsymm lt) (htr : LtTrans lt) {t u w : PTree K V}
    {f1 f2 : Nat} (hord : Ordered lt t)
    (h1 : balanceFuel lt f1 t = some u)
    (h2 : balanceFuel lt f2 u = some w) : w = u := by
  have hu : u = buildBal none (inorder t) :=
    balanceFuel_spec_pw hasym (ordered_pairwise htr hord) h1
  have hiu : inorder u = inorder t := by
    rw [hu]
    exact buildBal_inorder _ _ _ le_rfl
  have hw : w = buildBal none (inorder u) :=
    balanceFuel_spec_pw hasym
      (by rw [hiu]; exact ordered_pairwise htr hord) h2
  rw [hw, hiu, ← hu]

/-- Witness for C10: balancing the chain over keys 1, 2, 3 twice. -/
theorem bst_balance_idempotent_witness : bal3 = bal3 :=
  bst_balance_idempotent natLtB_asymm natLtB_trans (by decide)
    (show balanceFuel natLtB 20 chain3 = some bal3 by decide)
    (show balanceFuel natLtB 20 bal3 = some bal3 by decide)

end Claims

end PTree
